import Mathlib

/-!
Shallow embedding of `finetuning_glrb/finetune_chromatin.py` (caduceus-lrb):
chromosome recasting, the token-window locator and embedding aggregator of
`DNAModelForChromatineFeatures.forward`, the metric-accumulation step hooks of
`Lit_ChromatinFeatures`, the per-fold chromosome split of the data modules, the
N-fraction pre-tokenization filter, and the cross-validation fold selection.

Machine reals that the Python code manipulates as floats are modelled as exact
rationals (embeddings, the N-fraction threshold) or as real numbers (sigmoid).
-/

namespace FinetuneChromatin
/-! ### Chromosome recasting (`recast_chromosome`) -/

/-- A Python value that can appear in the `chromosome` field: either the raw
string from the dataset or the integer produced by an earlier recast. -/
inductive PyVal where
  | str : String → PyVal
  | int : Int → PyVal
deriving DecidableEq

/-- Numeric value of a decimal digit character. -/
def digitVal (c : Char) : ℕ := c.toNat - 48

/-- Value of a list of decimal digit characters, most significant first. -/
def decimalValue (cs : List Char) : ℕ := cs.foldl (fun n c => 10 * n + digitVal c) 0

/-- Python's `int(s)` on a string: an optional minus sign followed by one or
more decimal digits parses to the signed value; anything else raises
(modelled as `none`). -/
def pyIntOfString (s : String) : Option Int :=
  match s.data with
  | [] => none
  | '-' :: rest =>
      if rest ≠ [] ∧ rest.all Char.isDigit then some (-(decimalValue rest : ℤ)) else none
  | cs => if cs.all Char.isDigit then some ((decimalValue cs : ℤ)) else none

/-- Python's `int(v)`: identity on integers, decimal parsing on strings. -/
def pyInt : PyVal → Option Int
  | PyVal.str s => pyIntOfString s
  | PyVal.int i => some i

/-- Model of `recast_chromosome`: `-1 if examples["chromosome"] in ["X","Y"] else
int(examples["chromosome"])`.  Membership of an integer in the string list
`["X","Y"]` is always false in Python, so integers fall through to `int`. -/
def recast_chromosome (v : PyVal) : Option Int :=
  match v with
  | PyVal.str s => if s = "X" ∨ s = "Y" then some (-1) else pyInt (PyVal.str s)
  | PyVal.int i => pyInt (PyVal.int i)

/-! ### Window locator (`DNAModelForChromatineFeatures.forward`) -/

/-- Constant for the window size in base pairs. -/
def WINDOW_SIZE_BP : ℕ := 200

/-- Model of `window_size = WINDOW_SIZE_BP // self.bp_per_token // 2` (Python floor
division, left associated). -/
def window_size (bp_per_token : ℕ) : ℕ := WINDOW_SIZE_BP / bp_per_token / 2

/-- Model of `torch.clamp(x, 0, seq_len - 1)` on a single integer index, returned as a
natural number (the clamped value is nonnegative whenever `seq_len ≥ 1`). -/
def clampIdx (seq_len : ℕ) (x : ℤ) : ℕ := (min (max x 0) ((seq_len : ℤ) - 1)).toNat

/-- The clamped window indices of `forward`:
`torch.clamp(torch.arange(-window_size, window_size + 1) + seq_len // 2, 0, seq_len - 1)`.
Entry `i` of the arange is `i - window_size`. -/
def windowIndices (seq_len bp_per_token : ℕ) : List ℕ :=
  (List.range (2 * window_size bp_per_token + 1)).map
    (fun (i : ℕ) =>
      clampIdx seq_len (((seq_len / 2 : ℕ) : ℤ) + (i : ℤ) - (window_size bp_per_token : ℤ)))

/-! ### Embedding aggregator (`DNAModelForChromatineFeatures.forward`)

An embedding tensor for one batch element is modelled as a function
`ℕ → ℕ → ℚ` sending (token index, channel index) to the entry; the Python
floats are modelled as exact rationals.  The batch dimension is dropped: the
code applies the same computation to every batch element with the same
(content-independent) window indices. -/

/-- Gather a channel `j` at the clamped window indices and mean-pool over the
token dimension: `torch.gather(x, 1, expanded_indices...).mean(dim=1)`. -/
def windowMean (x : ℕ → ℕ → ℚ) (seq_len bp_per_token j : ℕ) : ℚ :=
  ((windowIndices seq_len bp_per_token).map (fun t => x t j)).sum /
    ((windowIndices seq_len bp_per_token).length : ℚ)

/-- Model of `rc_embeds = embeds_out[..., num_channels // 2:].flip(dims=[1, 2])`:
the reverse-complement half (channels `c/2 ..< c`) with the token axis and the
channel axis both reversed.  Slice width is `c - c/2`; flipping channel `j`
inside the slice lands at original channel `c/2 + (c - c/2 - 1 - j)`. -/
def rc_embeds (emb : ℕ → ℕ → ℚ) (seq_len c : ℕ) : ℕ → ℕ → ℚ :=
  fun t j => emb (seq_len - 1 - t) (c / 2 + (c - c / 2 - 1 - j))

/-- rcps branch: `aggregated_embeds = tokens_window_rc + tokens_window_ref`,
where `tokens_window_ref` pools the forward half `embeds_out[..., :c // 2]`
(channel `j < c/2` of the slice is channel `j` of the full tensor) and
`tokens_window_rc` pools `rc_embeds`, both at the same clamped window indices.
The result has `c / 2` channels (`j` ranges over `0 ..< c/2`). -/
def aggregated_embeds (emb : ℕ → ℕ → ℚ) (seq_len bp_per_token c j : ℕ) : ℚ :=
  windowMean (rc_embeds emb seq_len c) seq_len bp_per_token j +
    windowMean emb seq_len bp_per_token j

/-- non-rcps branch: `tokens_window_ref = torch.gather(embeds_out, 1, ...).mean(dim=1)`
on the full channel range; the output keeps all `c` channels. -/
def tokens_window_ref (emb : ℕ → ℕ → ℚ) (seq_len bp_per_token j : ℕ) : ℚ :=
  windowMean emb seq_len bp_per_token j

/-! ### Pre-tokenization N filter (`_download_and_preprocess_data`) -/

/-- Model of `example["sequence"].count('N')`: number of unknown-base calls. -/
def countN (sequence : List Char) : ℕ := sequence.count 'N'

/-- The filter predicate `example["sequence"].count('N') < 0.005 * self.seq_len`
(the float threshold modelled as the exact rational `5 / 1000`).  An example is
kept when the predicate holds and silently dropped otherwise; there is no
error path. -/
def keepExample (sequence : List Char) (seq_len : ℕ) : Prop :=
  (countN sequence : ℚ) < 5 / 1000 * (seq_len : ℚ)

/-! ### Per-fold chromosome split (`_split_dataset` of both data modules) -/

/-- One example of the preprocessed training partition. -/
structure DataExample where
  chromosome : ℤ
  ref_input_ids : List ℕ
  labels : List Bool
deriving DecidableEq

/-- Model of `self.train_dataset = self.dataset["train"].filter(lambda ...: c != selected_validation_chromosome)`. -/
def train_dataset (train : List DataExample) (held : ℤ) : List DataExample :=
  train.filter (fun e => e.chromosome != held)

/-- Model of `self.val_dataset = self.dataset["train"].filter(lambda ...: c == selected_validation_chromosome)`. -/
def val_dataset (train : List DataExample) (held : ℤ) : List DataExample :=
  train.filter (fun e => e.chromosome == held)

/-- A small concrete training partition used to instantiate the split claim. -/
def sampleTrainPartition : List DataExample :=
  [⟨1, [0], [true]⟩, ⟨2, [1], [false]⟩, ⟨1, [2], [true]⟩, ⟨3, [3], [false]⟩]

/-! ### Metric accumulation (`Lit_ChromatinFeatures` step hooks)

The mutable accumulator lists of the Lightning module are modelled as explicit
state; logits and labels are real numbers.  Each step hook appends the
binarized predictions `(torch.sigmoid(logits) > 0.5).float()` and the labels of
its batch; `test_step` appends to the validation lists, exactly as the code
does.  The epoch-end hooks compute accuracy/AUPRC/AUROC from these lists
(external sklearn calls) and clear them. -/

/-- The accumulator lists created in `Lit_ChromatinFeatures.setup`. -/
structure LitState where
  validation_step_preds : List ℝ
  validation_step_labels : List ℝ
  training_step_preds : List ℝ
  training_step_labels : List ℝ

/-- The state right after `setup`: four empty lists. -/
def initLitState : LitState := ⟨[], [], [], []⟩

/-- Model of `torch.sigmoid`. -/
noncomputable def sigmoid (x : ℝ) : ℝ := 1 / (1 + Real.exp (-x))

/-- Model of `(torch.sigmoid(logit) > 0.5).float()` for a single logit. -/
noncomputable def binarizePred (logit : ℝ) : ℝ := if sigmoid logit > 0.5 then 1 else 0

/-- Model of `training_step`: extends the training lists with the binarized predictions
and the labels of the batch. -/
noncomputable def training_step (st : LitState) (logits labels : List ℝ) : LitState :=
  { st with
    training_step_preds := st.training_step_preds ++ logits.map binarizePred,
    training_step_labels := st.training_step_labels ++ labels }

/-- Model of `validation_step`: extends the validation lists likewise. -/
noncomputable def validation_step (st : LitState) (logits labels : List ℝ) : LitState :=
  { st with
    validation_step_preds := st.validation_step_preds ++ logits.map binarizePred,
    validation_step_labels := st.validation_step_labels ++ labels }

/-- Model of `test_step`: also extends the validation lists (the code reuses them). -/
noncomputable def test_step (st : LitState) (logits labels : List ℝ) : LitState :=
  { st with
    validation_step_preds := st.validation_step_preds ++ logits.map binarizePred,
    validation_step_labels := st.validation_step_labels ++ labels }

/-- Which step hook the training loop invokes for one batch. -/
inductive StepKind where
  | train
  | val
  | test

/-- Dispatch one batch to its step hook. -/
noncomputable def runStep (st : LitState) : StepKind × List ℝ × List ℝ → LitState
  | (StepKind.train, logits, labels) => training_step st logits labels
  | (StepKind.val, logits, labels) => validation_step st logits labels
  | (StepKind.test, logits, labels) => test_step st logits labels

/-- Run a whole sequence of batches through the step hooks. -/
noncomputable def runSteps (st : LitState) (batches : List (StepKind × List ℝ × List ℝ)) :
    LitState :=
  batches.foldl runStep st

/-- Both accumulated prediction lists contain only hard 0/1 values. -/
def predsBinary (st : LitState) : Prop :=
  (∀ v ∈ st.training_step_preds, v = 0 ∨ v = 1) ∧
  (∀ v ∈ st.validation_step_preds, v = 0 ∨ v = 1)

/-! ### Cross-validation fold selection
(`finetune_histone_marks` / `finetune_dna_accessibility`)

`np.random.seed(0); candidates = np.unique(dataset["train"]["chromosome"]);
held_chromosomes = np.random.choice(candidates, 5, replace=False)`.
numpy is an external collaborator, so its two operations are modelled from the
spec: `np.unique` as sorted deduplication, and the seeded Mersenne-Twister
choice as a pure pseudo-random generator driving a draw without replacement —
a deterministic function of the seed and the candidate list. -/

/-- Modelled from the spec: one step of the deterministically seeded
pseudo-random generator (numpy's seeded generator is external; a
linear-congruential generator stands in for it). -/
def lcg (s : ℕ) : ℕ := (1103515245 * s + 12345) % 4294967296

/-- Modelled from the spec: draw `k` elements without replacement from `pool`,
each pick removing the chosen element, driven by the generator state `s`. -/
def selectFold : ℕ → ℕ → List ℤ → List ℤ
  | 0, _, _ => []
  | k + 1, s, pool =>
      if pool.length = 0 then []
      else
        let x := pool.getD (lcg s % pool.length) 0
        x :: selectFold k (lcg s) (pool.erase x)

/-- Insert into a sorted list, keeping it sorted. -/
def insertSorted (x : ℤ) : List ℤ → List ℤ
  | [] => [x]
  | y :: ys => if x ≤ y then x :: y :: ys else y :: insertSorted x ys

/-- Insertion sort. -/
def sortInts (l : List ℤ) : List ℤ := l.foldr insertSorted []

/-- Modelled from the spec: `np.unique` — the sorted distinct values of a list. -/
def npUnique (l : List ℤ) : List ℤ := sortInts l.dedup

/-- The candidate set: the distinct chromosomes present in the training
partition (`np.unique(data_module.dataset["train"]["chromosome"])`). -/
def np_unique_chromosomes (train : List DataExample) : List ℤ :=
  npUnique (train.map (fun e => e.chromosome))

/-- Model of `held_chromosomes = np.random.choice(candidates, 5, replace=False)` right
after `np.random.seed(0)`: five distinct held-out chromosomes for the run. -/
def held_chromosomes (train : List DataExample) : List ℤ :=
  selectFold 5 0 (np_unique_chromosomes train)

/-- Training partitions with the chromosomes of `sampleTrainPartition` listed
in a different order and multiplicity, used to instantiate determinism. -/
def sampleTrainA : List DataExample :=
  [⟨3, [], []⟩, ⟨1, [], []⟩, ⟨2, [], []⟩, ⟨5, [], []⟩, ⟨4, [], []⟩, ⟨3, [], []⟩]

def sampleTrainB : List DataExample :=
  [⟨5, [9], [true]⟩, ⟨4, [], []⟩, ⟨3, [], []⟩, ⟨2, [], []⟩, ⟨1, [], []⟩]

/-! ### Window-locator lemmas -/

theorem windowIndices_length (n b : ℕ) :
    (windowIndices n b).length = 2 * window_size b + 1 := by
  rw [windowIndices, List.length_map, List.length_range]

theorem windowIndices_mem_lt (n b : ℕ) (hn : 0 < n) :
    ∀ t ∈ windowIndices n b, t < n := by
  intro t ht
  simp only [windowIndices, List.mem_map, List.mem_range] at ht
  obtain ⟨i, -, rfl⟩ := ht
  unfold clampIdx
  have h1 : min (max (((n / 2 : ℕ) : ℤ) + (i : ℤ) - (window_size b : ℤ)) 0) ((n : ℤ) - 1)
      ≤ (n : ℤ) - 1 := min_le_right _ _
  omega

/-- When the window exactly covers the sequence (`2 * window_size + 1 = seq_len`),
no index is moved by clamping and the indices are `0, 1, …, seq_len - 1`. -/
theorem windowIndices_eq_range (n b : ℕ) (h : 2 * window_size b + 1 = n) :
    windowIndices n b = List.range n := by
  subst h
  have hc : (2 * window_size b + 1) / 2 = window_size b := by omega
  unfold windowIndices
  rw [hc]
  have : ∀ i ∈ List.range (2 * window_size b + 1),
      clampIdx (2 * window_size b + 1) ((window_size b : ℤ) + (i : ℤ) - (window_size b : ℤ)) = i := by
    intro i hi
    rw [List.mem_range] at hi
    unfold clampIdx
    have h1 : (window_size b : ℤ) + (i : ℤ) - (window_size b : ℤ) = (i : ℤ) := by ring
    rw [h1]
    have h2 : max (i : ℤ) 0 = (i : ℤ) := max_eq_left (by positivity)
    rw [h2]
    have h3 : min (i : ℤ) (((2 * window_size b + 1 : ℕ) : ℤ) - 1) = (i : ℤ) := by
      apply min_eq_left
      omega
    rw [h3, Int.toNat_natCast]
  calc (List.range (2 * window_size b + 1)).map
        (fun (i : ℕ) => clampIdx (2 * window_size b + 1)
          ((window_size b : ℤ) + (i : ℤ) - (window_size b : ℤ)))
      = (List.range (2 * window_size b + 1)).map id := List.map_congr_left this
    _ = List.range (2 * window_size b + 1) := List.map_id _

/-! ### Claims C1–C4 -/

/-- C1: with rcps enabled the aggregator splits the channels in half, double-
reverses the RC half (token and channel axes), gathers both halves at the same
clamped window indices, mean-pools each and sums them (output has `c/2`
channels, visible in the shape of `aggregated_embeds`); for every embedding
whose RC half equals the forward half after the double reversal, the pooled
output is exactly twice the forward-only window mean. -/
theorem rcps_palindromic_embedding_doubles_forward_mean
    (emb : ℕ → ℕ → ℚ) (n b h j : ℕ) (hn : 0 < n) (hj : j < h)
    (hrc : ∀ t < n, ∀ j' < h, rc_embeds emb n (2 * h) t j' = emb t j') :
    aggregated_embeds emb n b (2 * h) j = 2 * windowMean emb n b j := by
  have hmap : (windowIndices n b).map (fun t => rc_embeds emb n (2 * h) t j)
      = (windowIndices n b).map (fun t => emb t j) :=
    List.map_congr_left (fun t ht => hrc t (windowIndices_mem_lt n b hn t ht) j hj)
  unfold aggregated_embeds windowMean
  rw [hmap]
  ring

theorem rcps_palindromic_embedding_doubles_forward_mean_witness :
    aggregated_embeds (fun _ _ => (3 : ℚ)) 1 1 2 0
      = 2 * windowMean (fun _ _ => (3 : ℚ)) 1 1 0 :=
  rcps_palindromic_embedding_doubles_forward_mean (fun _ _ => 3) 1 1 1 0
    (by decide) (by decide) (fun _ _ _ _ => rfl)

/-- C2: the window locator computes half-width `⌊window_bp / bp_per_token / 2⌋`
(equal to `⌊200 / (2·b)⌋`), centers the inclusive raw range
`[center - hw, center + hw]` at `center = ⌊n / 2⌋`, has length `2·hw + 1`, and
clamps each index independently to `[0, n - 1]`; the indices are a function of
`seq_len` and `bp_per_token` alone (see the signature of `windowIndices`),
never of embedding contents or batch element. -/
theorem window_locator_formula (n b i : ℕ) (_hb : 0 < b)
    (hi : i < 2 * (WINDOW_SIZE_BP / (2 * b)) + 1) :
    (windowIndices n b).length = 2 * (WINDOW_SIZE_BP / (2 * b)) + 1 ∧
    (windowIndices n b).getD i 0 =
      clampIdx n (((n / 2 : ℕ) : ℤ) - ((WINDOW_SIZE_BP / (2 * b) : ℕ) : ℤ) + (i : ℤ)) := by
  have hws : window_size b = WINDOW_SIZE_BP / (2 * b) := by
    rw [window_size, Nat.div_div_eq_div_mul, Nat.mul_comm]
  constructor
  · rw [windowIndices_length, hws]
  · rw [windowIndices]
    rw [← hws] at hi ⊢
    rw [List.getD_eq_getElem?_getD, List.getElem?_map, List.getElem?_range (by omega)]
    simp only [Option.map_some', Option.getD_some]
    congr 1
    ring

theorem window_locator_formula_witness :
    (windowIndices 11 50).length = 2 * (WINDOW_SIZE_BP / (2 * 50)) + 1 ∧
    (windowIndices 11 50).getD 0 0 =
      clampIdx 11 (((11 / 2 : ℕ) : ℤ) - ((WINDOW_SIZE_BP / (2 * 50) : ℕ) : ℤ) + ((0 : ℕ) : ℤ)) :=
  window_locator_formula 11 50 0 (Nat.succ_le_succ (Nat.zero_le 49)) (by decide)

/-- C3 (amended): for `n ≥ 1`, `b ≥ 1` every returned index is inside
`[0, n - 1]` and the index list has odd length; the length is `2·hw + 1`,
which is at most `n` exactly when `2·hw + 1 ≤ n` — it exceeds `n` whenever the
requested window is larger than the token sequence. -/
theorem window_locator_safety (n b : ℕ) (hn : 0 < n) (_hb : 0 < b) :
    (∀ t ∈ windowIndices n b, t < n) ∧
    Odd (windowIndices n b).length ∧
    (2 * window_size b + 1 ≤ n → (windowIndices n b).length ≤ n) := by
  refine ⟨windowIndices_mem_lt n b hn, ⟨window_size b, ?_⟩, ?_⟩
  · rw [windowIndices_length]
  · intro hle; rw [windowIndices_length]; exact hle

theorem window_locator_safety_witness :
    (∀ t ∈ windowIndices 5 50, t < 5) ∧
    Odd (windowIndices 5 50).length ∧
    (2 * window_size 50 + 1 ≤ 5 → (windowIndices 5 50).length ≤ 5) :=
  window_locator_safety 5 50 (by decide) (by decide)

/-- C3 counterexample: at `token_count = 1`, `bp_per_token = 1` the index list
has length 201, which is not at most `token_count`. -/
theorem window_locator_length_can_exceed_token_count :
    0 < 1 ∧ 0 < 1 ∧ ¬ ((windowIndices 1 1).length ≤ 1) := by
  refine ⟨Nat.one_pos, Nat.one_pos, ?_⟩
  rw [windowIndices_length]
  decide

/-- C4: with rcps disabled, when the window exactly covers the whole sequence
(`2·hw + 1 = n`, so no index is moved by clamping) the aggregated vector is the
arithmetic mean of all per-token embedding vectors; all `c` channels are kept
(`j` is unrestricted in `tokens_window_ref`). -/
theorem no_rcps_full_window_gives_full_mean
    (emb : ℕ → ℕ → ℚ) (n b j : ℕ) (hwin : 2 * window_size b + 1 = n) :
    tokens_window_ref emb n b j = ((List.range n).map (fun t => emb t j)).sum / (n : ℚ) := by
  unfold tokens_window_ref windowMean
  rw [windowIndices_eq_range n b hwin, List.length_range]

theorem no_rcps_full_window_gives_full_mean_witness :
    tokens_window_ref (fun t _ => (t : ℚ)) 5 50 0
      = ((List.range 5).map (fun t => ((t : ℚ)))).sum / (5 : ℚ) :=
  no_rcps_full_window_gives_full_mean (fun t _ => (t : ℚ)) 5 50 0 (by decide)

/-! ### Claims C5, C9, C8, C6 -/

/-- C5: `recast_chromosome` is total on the domain of the numeric strings
"1".."22" together with "X" and "Y": it sends each numeric string to its
integer and both "X" and "Y" to the sentinel `-1`, and it is
idempotent: recasting an already-recast (integer) value returns it unchanged. -/
theorem recast_chromosome_total_and_idempotent :
    (∀ n : ℕ, n < 23 → 1 ≤ n → recast_chromosome (PyVal.str (toString n)) = some (n : ℤ)) ∧
    recast_chromosome (PyVal.str "X") = some (-1) ∧
    recast_chromosome (PyVal.str "Y") = some (-1) ∧
    (∀ v : PyVal, ∀ i : ℤ, recast_chromosome v = some i →
      recast_chromosome (PyVal.int i) = some i) := by
  refine ⟨by decide, by decide, by decide, fun v i _ => rfl⟩

theorem recast_chromosome_total_and_idempotent_witness :
    recast_chromosome (PyVal.str (toString (7 : ℕ))) = some ((7 : ℕ) : ℤ) ∧
    recast_chromosome (PyVal.int (-1)) = some (-1) :=
  ⟨recast_chromosome_total_and_idempotent.1 7 (by decide) (by decide),
   recast_chromosome_total_and_idempotent.2.2.2 (PyVal.str "X") (-1)
     recast_chromosome_total_and_idempotent.2.1⟩

/-- C9: on a chromosome string that is neither "X" nor "Y" and does not parse
as a decimal integer (e.g. "MT" or "chr1"), `recast_chromosome` returns no
value: the `int` conversion fails instead of producing a sentinel. -/
theorem recast_chromosome_fails_on_non_numeric (s : String)
    (hx : s ≠ "X") (hy : s ≠ "Y") (hp : pyIntOfString s = none) :
    recast_chromosome (PyVal.str s) = none := by
  have h : recast_chromosome (PyVal.str s)
      = if s = "X" ∨ s = "Y" then some (-1) else pyInt (PyVal.str s) := rfl
  rw [h, if_neg (by tauto)]
  exact hp

theorem recast_chromosome_fails_on_non_numeric_witness :
    pyIntOfString "MT" = none ∧ recast_chromosome (PyVal.str "MT") = none ∧
    pyIntOfString "chr1" = none ∧ recast_chromosome (PyVal.str "chr1") = none :=
  ⟨by decide,
   recast_chromosome_fails_on_non_numeric "MT" (by decide) (by decide) (by decide),
   by decide,
   recast_chromosome_fails_on_non_numeric "chr1" (by decide) (by decide) (by decide)⟩

/-- C8 (amended): an example is kept exactly when its 'N' count is strictly
below 0.5% of the configured sequence length, i.e. dropped iff the N fraction
reaches or exceeds the threshold; an example exactly at the threshold is
dropped, not kept.  The filter is a total predicate — no error path. -/
theorem n_filter_keeps_iff_fraction_strictly_below (s : List Char) (n : ℕ) (hn : 0 < n) :
    keepExample s n ↔ (countN s : ℚ) / (n : ℚ) < 5 / 1000 := by
  unfold keepExample
  rw [div_lt_iff₀ (by positivity)]

theorem n_filter_keeps_iff_fraction_strictly_below_witness :
    keepExample ['A'] 1000 ↔ (countN ['A'] : ℚ) / (1000 : ℚ) < 5 / 1000 :=
  n_filter_keeps_iff_fraction_strictly_below ['A'] 1000 (by decide)

/-- C8 counterexample: with `seq_len = 1000`, a sequence with exactly five 'N'
calls sits exactly at the 0.5% threshold; the claim says such an example is
kept ("below/at the threshold"), but the strict `<` in the code drops it. -/
theorem n_filter_drops_at_exact_threshold :
    (countN (List.replicate 5 'N') : ℚ) = 5 / 1000 * (1000 : ℚ) ∧
    ¬ keepExample (List.replicate 5 'N') 1000 := by
  have h5 : countN (List.replicate 5 'N') = 5 := by decide
  constructor
  · rw [h5]; norm_num
  · unfold keepExample
    rw [h5]
    norm_num

/-- C6: the per-fold split partitions the training partition: the train subset
is exactly the examples whose chromosome differs from the held-out one, the
eval subset exactly those equal to it, and together they are a permutation of
the original partition (both are filters of the unmodified `dataset["train"]`). -/
theorem split_dataset_partitions (train : List DataExample) (held : ℤ) :
    (∀ e ∈ train_dataset train held, e.chromosome ≠ held) ∧
    (∀ e ∈ val_dataset train held, e.chromosome = held) ∧
    (train_dataset train held ++ val_dataset train held).Perm train := by
  refine ⟨?_, ?_, ?_⟩
  · intro e he
    have h := List.of_mem_filter he
    simpa using h
  · intro e he
    have h := List.of_mem_filter he
    simpa using h
  · have h := List.filter_append_perm (fun e => e.chromosome == held) train
    have hperm := (List.perm_append_comm).trans h
    simpa [train_dataset, val_dataset, bne] using hperm

theorem split_dataset_partitions_witness :
    (∀ e ∈ train_dataset sampleTrainPartition 1, e.chromosome ≠ 1) ∧
    (∀ e ∈ val_dataset sampleTrainPartition 1, e.chromosome = 1) ∧
    (train_dataset sampleTrainPartition 1 ++ val_dataset sampleTrainPartition 1).Perm
      sampleTrainPartition :=
  split_dataset_partitions sampleTrainPartition 1

theorem binarizePred_binary (x : ℝ) : binarizePred x = 0 ∨ binarizePred x = 1 := by
  unfold binarizePred
  split
  · right; rfl
  · left; rfl

theorem runStep_preserves_predsBinary (st : LitState) (bt : StepKind × List ℝ × List ℝ)
    (h : predsBinary st) : predsBinary (runStep st bt) := by
  obtain ⟨kind, logits, labels⟩ := bt
  obtain ⟨ht, hv⟩ := h
  cases kind <;>
    refine ⟨?_, ?_⟩ <;>
    intro v hvmem <;>
    simp only [runStep, training_step, validation_step, test_step, List.mem_append,
      List.mem_map] at hvmem <;>
    first
    | (rcases hvmem with hvmem | ⟨x, -, rfl⟩
       · exact ht v hvmem
       · exact binarizePred_binary x)
    | (rcases hvmem with hvmem | ⟨x, -, rfl⟩
       · exact hv v hvmem
       · exact binarizePred_binary x)
    | exact ht v hvmem
    | exact hv v hvmem

theorem runSteps_preserves_predsBinary (batches : List (StepKind × List ℝ × List ℝ)) :
    ∀ st : LitState, predsBinary st → predsBinary (runSteps st batches) := by
  induction batches with
  | nil => intro st h; exact h
  | cons bt rest ih =>
      intro st h
      exact ih (runStep st bt) (runStep_preserves_predsBinary st bt h)

/-- C10: after any sequence of training/validation/test batches starting from
the freshly set-up module, every value in the accumulated prediction lists —
the values the epoch-level accuracy/AUPRC/AUROC are computed from — is a hard
0/1 value obtained by thresholding `sigmoid(logit)` at 0.5, never a raw score. -/
theorem accumulated_preds_are_binarized (batches : List (StepKind × List ℝ × List ℝ)) (v : ℝ)
    (hv : v ∈ (runSteps initLitState batches).training_step_preds ∨
          v ∈ (runSteps initLitState batches).validation_step_preds) :
    v = 0 ∨ v = 1 := by
  have h := runSteps_preserves_predsBinary batches initLitState
    ⟨fun x hx => absurd hx (List.not_mem_nil x), fun x hx => absurd hx (List.not_mem_nil x)⟩
  rcases hv with hv | hv
  · exact h.1 v hv
  · exact h.2 v hv

theorem accumulated_preds_are_binarized_witness :
    (0 : ℝ) ∈ (runSteps initLitState [(StepKind.train, [0], [1])]).training_step_preds ∧
    ((0 : ℝ) = 0 ∨ (0 : ℝ) = 1) := by
  have hb : binarizePred 0 = 0 := by
    unfold binarizePred sigmoid
    rw [neg_zero, Real.exp_zero]
    norm_num
  have hmem : (0 : ℝ) ∈ (runSteps initLitState [(StepKind.train, [0], [1])]).training_step_preds := by
    simp [runSteps, runStep, training_step, initLitState, hb]
  exact ⟨hmem, accumulated_preds_are_binarized [(StepKind.train, [0], [1])] 0 (Or.inl hmem)⟩

/-! ### Sorting and draw-without-replacement lemmas, and claim C7 -/

theorem insertSorted_perm (x : ℤ) (l : List ℤ) : (insertSorted x l).Perm (x :: l) := by
  induction l with
  | nil => exact List.Perm.refl _
  | cons y ys ih =>
      unfold insertSorted
      split
      · exact List.Perm.refl _
      · exact (List.Perm.cons y ih).trans (List.Perm.swap x y ys)

theorem sortInts_perm (l : List ℤ) : (sortInts l).Perm l := by
  induction l with
  | nil => exact List.Perm.refl _
  | cons a l ih =>
      have h1 : sortInts (a :: l) = insertSorted a (sortInts l) := rfl
      rw [h1]
      exact (insertSorted_perm a (sortInts l)).trans (List.Perm.cons a ih)

theorem insertSorted_sorted (x : ℤ) (l : List ℤ) (hl : List.Sorted (· ≤ ·) l) :
    List.Sorted (· ≤ ·) (insertSorted x l) := by
  induction l with
  | nil => simp [insertSorted]
  | cons y ys ih =>
      rw [List.sorted_cons] at hl
      obtain ⟨hy, hys⟩ := hl
      unfold insertSorted
      split
      · rename_i hxy
        rw [List.sorted_cons]
        refine ⟨?_, List.sorted_cons.mpr ⟨hy, hys⟩⟩
        intro b hb
        rcases List.mem_cons.mp hb with rfl | hb
        · exact hxy
        · exact le_trans hxy (hy b hb)
      · rename_i hxy
        push_neg at hxy
        rw [List.sorted_cons]
        refine ⟨?_, ih hys⟩
        intro b hb
        have hb2 := (insertSorted_perm x ys).mem_iff.mp hb
        rcases List.mem_cons.mp hb2 with rfl | hb2
        · exact le_of_lt hxy
        · exact hy b hb2

theorem sortInts_sorted (l : List ℤ) : List.Sorted (· ≤ ·) (sortInts l) := by
  induction l with
  | nil => simp [sortInts]
  | cons a l ih => exact insertSorted_sorted a (sortInts l) ih

theorem npUnique_nodup (l : List ℤ) : (npUnique l).Nodup :=
  ((sortInts_perm l.dedup).nodup_iff).mpr (List.nodup_dedup l)

theorem npUnique_mem (x : ℤ) (l : List ℤ) : x ∈ npUnique l ↔ x ∈ l :=
  ((sortInts_perm l.dedup).mem_iff).trans List.mem_dedup

theorem npUnique_eq_of_mem_iff (l1 l2 : List ℤ) (h : ∀ x : ℤ, x ∈ l1 ↔ x ∈ l2) :
    npUnique l1 = npUnique l2 := by
  have hperm : (npUnique l1).Perm (npUnique l2) := by
    rw [List.perm_iff_count]
    intro a
    by_cases ha : a ∈ l1
    · rw [List.count_eq_one_of_mem (npUnique_nodup l1) ((npUnique_mem a l1).mpr ha),
        List.count_eq_one_of_mem (npUnique_nodup l2) ((npUnique_mem a l2).mpr ((h a).mp ha))]
    · rw [List.count_eq_zero_of_not_mem (fun hc => ha ((npUnique_mem a l1).mp hc)),
        List.count_eq_zero_of_not_mem (fun hc => ha ((h a).mpr ((npUnique_mem a l2).mp hc)))]
  exact List.eq_of_perm_of_sorted hperm (sortInts_sorted _) (sortInts_sorted _)

theorem selectFold_mem (k s : ℕ) (pool : List ℤ) :
    ∀ x ∈ selectFold k s pool, x ∈ pool := by
  induction k generalizing s pool with
  | zero => intro x hx; simp [selectFold] at hx
  | succ k ih =>
      intro x hx
      unfold selectFold at hx
      split at hx
      · simp at hx
      · rename_i hne
        rcases List.mem_cons.mp hx with rfl | hx
        · have hlt : lcg s % pool.length < pool.length :=
            Nat.mod_lt _ (Nat.pos_of_ne_zero hne)
          rw [List.getD_eq_getElem?_getD, List.getElem?_eq_getElem hlt]
          exact List.getElem_mem hlt
        · exact List.mem_of_mem_erase (ih (lcg s) _ x hx)

theorem selectFold_nodup (k s : ℕ) (pool : List ℤ) (hp : pool.Nodup) :
    (selectFold k s pool).Nodup := by
  induction k generalizing s pool with
  | zero => simp [selectFold]
  | succ k ih =>
      unfold selectFold
      split
      · exact List.nodup_nil
      · rename_i hne
        refine List.nodup_cons.mpr ⟨?_, ih (lcg s) _ (List.Nodup.erase _ hp)⟩
        intro hmem
        exact (List.Nodup.not_mem_erase hp)
          (selectFold_mem k (lcg s) _ _ hmem)

theorem selectFold_length (k s : ℕ) (pool : List ℤ) (hk : k ≤ pool.length) :
    (selectFold k s pool).length = k := by
  induction k generalizing s pool with
  | zero => simp [selectFold]
  | succ k ih =>
      unfold selectFold
      split
      · omega
      · rename_i hne
        have hlt : lcg s % pool.length < pool.length :=
          Nat.mod_lt _ (Nat.pos_of_ne_zero hne)
        have hmem : pool.getD (lcg s % pool.length) 0 ∈ pool := by
          rw [List.getD_eq_getElem?_getD, List.getElem?_eq_getElem hlt]
          exact List.getElem_mem hlt
        rw [List.length_cons, ih (lcg s) _ (by rw [List.length_erase_of_mem hmem]; omega)]

/-- C7: fold selection is a deterministic function of the seeded generator and
the candidate chromosome set (two training partitions exhibiting the same set
of chromosomes yield the same 5 held-out chromosomes), and the 5 selected
chromosomes are pairwise distinct, drawn without replacement from the distinct
chromosomes present in the training partition. -/
theorem fold_selection_deterministic_and_distinct (train1 train2 : List DataExample)
    (hsame : ∀ c : ℤ, c ∈ train1.map (fun e => e.chromosome) ↔
      c ∈ train2.map (fun e => e.chromosome))
    (hcard : 5 ≤ (np_unique_chromosomes train1).length) :
    held_chromosomes train1 = held_chromosomes train2 ∧
    (held_chromosomes train1).Nodup ∧
    (held_chromosomes train1).length = 5 ∧
    ∀ c ∈ held_chromosomes train1, c ∈ np_unique_chromosomes train1 := by
  have hcand : np_unique_chromosomes train1 = np_unique_chromosomes train2 :=
    npUnique_eq_of_mem_iff _ _ hsame
  refine ⟨?_, ?_, ?_, ?_⟩
  · unfold held_chromosomes
    rw [hcand]
  · exact selectFold_nodup 5 0 _ (npUnique_nodup _)
  · exact selectFold_length 5 0 _ hcard
  · exact selectFold_mem 5 0 _

theorem fold_selection_deterministic_and_distinct_witness :
    held_chromosomes sampleTrainA = held_chromosomes sampleTrainB ∧
    (held_chromosomes sampleTrainA).Nodup ∧
    (held_chromosomes sampleTrainA).length = 5 ∧
    ∀ c ∈ held_chromosomes sampleTrainA, c ∈ np_unique_chromosomes sampleTrainA := by
  refine fold_selection_deterministic_and_distinct sampleTrainA sampleTrainB ?_ (by decide)
  intro c
  constructor <;> intro h <;>
    (simp only [sampleTrainA, sampleTrainB, List.map_cons, List.map_nil,
      List.mem_cons, List.not_mem_nil, or_false] at h ⊢; tauto)

end FinetuneChromatin
